import Mathlib

/-!
Shallow embedding of the wordpress-to-zola converter (src/main.rs).

Strings are modelled as lists of characters (`List Char`). The external
collaborators (chrono date parsing/rendering, html2md rendering, the
filesystem) are abstracted: date parsing is a parameter returning
`Option DateTime`, html-to-markdown rendering is a parameter
`List Char → List Char`, and file-system effects are recorded as an
event trace (`FileWrite`).
-/

namespace WordpressToZola

/-- Paginate section by this number of posts (the `PAGINATE_BY` constant). -/
def PAGINATE_BY : Nat := 5

/-- Character-level replace, the embedding of Rust `str::replace` for a
single-character pattern: every occurrence of `a` is replaced by `r`. -/
def replaceChar (a : Char) (r : List Char) : List Char → List Char
  | [] => []
  | c :: cs => (if c = a then r else [c]) ++ replaceChar a r cs

/-- Embedding of `normalize_line_breaks`: first replace every carriage
return by a line feed, then replace every line feed by the text `<br>`. -/
def normalize_line_breaks (content : List Char) : List Char :=
  let content_without_windows_breaks := replaceChar '\r' ['\n'] content
  replaceChar '\n' "<br>".data content_without_windows_breaks

/-- Fuel-driven core of Rust `str::trim_start_matches`: repeatedly strip
`pat` from the front while it remains a prefix (an empty pattern strips
nothing). Fuel `s.length` always suffices since each strip removes at
least one character. -/
def trimStartMatchesAux : Nat → List Char → List Char → List Char
  | 0, _, s => s
  | Nat.succ fuel, pat, s =>
    if pat.isEmpty then s
    else if pat.isPrefixOf s then trimStartMatchesAux fuel pat (List.drop pat.length s)
    else s

/-- Embedding of Rust `str::trim_start_matches`. -/
def trimStartMatches (pat s : List Char) : List Char :=
  trimStartMatchesAux s.length pat s

/-- Embedding of `str::trim_matches('/')`: drop every leading and
trailing slash. -/
def trimMatchesSlash (s : List Char) : List Char :=
  (((s.dropWhile (fun c => c == '/')).reverse.dropWhile (fun c => c == '/'))).reverse

/-- Embedding of `generate_path`: strip the base url from the front of
the link with `trim_start_matches`, trim slashes at both ends, append
the `.md` extension. -/
def generate_path (base link : List Char) : List Char :=
  trimMatchesSlash (trimStartMatches base link) ++ ".md".data

/-- Modelled from the claim wording for `generate_path` (refinement
target): remove `base` from `link` only if it is an exact prefix, and
remove it only once; then trim slashes and append `.md`. -/
def generate_path_once (base link : List Char) : List Char :=
  trimMatchesSlash (if base.isPrefixOf link then List.drop base.length link else link)
    ++ ".md".data

end WordpressToZola

namespace WordpressToZola

theorem trimStartMatchesAux_eq_of_le (pat : List Char) :
    ∀ fuel s, s.length ≤ fuel →
      trimStartMatchesAux fuel pat s = trimStartMatchesAux s.length pat s := by
  intro fuel
  induction fuel using Nat.strong_induction_on with
  | _ fuel ih =>
    intro s hs
    cases fuel with
    | zero =>
      have : s = [] := List.length_eq_zero.mp (Nat.le_zero.mp hs)
      subst this
      rfl
    | succ fuel =>
      match hpat : pat with
      | [] =>
        cases s with
        | nil => rfl
        | cons c cs => simp [trimStartMatchesAux]
      | p :: ps =>
        by_cases hpre : (p :: ps).isPrefixOf s
        · have hlen : (p :: ps).length ≤ s.length :=
            (List.isPrefixOf_iff_prefix.mp hpre).length_le
          simp only [List.length_cons] at hlen
          have hspos : 0 < s.length := by omega
          obtain ⟨m, hm⟩ : ∃ m, s.length = m + 1 :=
            ⟨s.length - 1, by omega⟩
          have hstep : trimStartMatchesAux (Nat.succ fuel) (p :: ps) s
              = trimStartMatchesAux fuel (p :: ps) (List.drop (p :: ps).length s) := by
            simp [trimStartMatchesAux, hpre]
          have hstep2 : trimStartMatchesAux (m + 1) (p :: ps) s
              = trimStartMatchesAux m (p :: ps) (List.drop (p :: ps).length s) := by
            simp [trimStartMatchesAux, hpre]
          have hdlen : (List.drop (p :: ps).length s).length ≤ fuel := by
            simp only [List.length_drop, List.length_cons]
            omega
          have hdlen2 : (List.drop (p :: ps).length s).length ≤ m := by
            simp only [List.length_drop, List.length_cons]
            omega
          rw [hstep, hm, hstep2]
          rw [ih fuel (Nat.lt_succ_self fuel) _ hdlen]
          rw [ih m (by omega) _ hdlen2]
        · cases s with
          | nil => rfl
          | cons c cs => simp [trimStartMatchesAux, hpre]

theorem trimStartMatches_step (pat s : List Char) (hpat : pat ≠ [])
    (hpre : pat.isPrefixOf s = true) :
    trimStartMatches pat s = trimStartMatches pat (List.drop pat.length s) := by
  have hlen : pat.length ≤ s.length := (List.isPrefixOf_iff_prefix.mp hpre).length_le
  have hppos : 0 < pat.length := List.length_pos.mpr hpat
  obtain ⟨m, hm⟩ : ∃ m, s.length = m + 1 := ⟨s.length - 1, by omega⟩
  have hne : ¬ pat.isEmpty := by
    cases pat with
    | nil => exact absurd rfl hpat
    | cons p ps => simp
  unfold trimStartMatches
  rw [hm]
  show trimStartMatchesAux (Nat.succ m) pat s = _
  have : trimStartMatchesAux (Nat.succ m) pat s
      = trimStartMatchesAux m pat (List.drop pat.length s) := by
    simp only [trimStartMatchesAux, hpre, if_true]
    rw [if_neg hne]
  rw [this]
  apply trimStartMatchesAux_eq_of_le
  simp only [List.length_drop]
  omega

theorem trimStartMatches_of_not_pre (pat s : List Char)
    (h : pat.isPrefixOf s = false) :
    trimStartMatches pat s = s := by
  unfold trimStartMatches
  cases s with
  | nil => rfl
  | cons c cs =>
    show trimStartMatchesAux (Nat.succ cs.length) pat (c :: cs) = c :: cs
    simp only [trimStartMatchesAux, h]
    split <;> simp

theorem trimStartMatches_nil_pat (s : List Char) :
    trimStartMatches [] s = s := by
  cases s with
  | nil => rfl
  | cons c cs =>
    show trimStartMatchesAux (Nat.succ cs.length) [] (c :: cs) = c :: cs
    simp [trimStartMatchesAux]

/-- Embedding of the `Category` record (`domain`, `nicename`). -/
structure Category where
  domain : List Char
  nicename : List Char
deriving DecidableEq

/-- Embedding of the `PostType` enum. -/
inductive PostType where
  | attachment : PostType
  | post : PostType
deriving DecidableEq

/-- Embedding of the `Status` enum (`private` is a Lean keyword, spelled
`priv`). -/
inductive Status where
  | publish : Status
  | draft : Status
  | inherit : Status
  | priv : Status
deriving DecidableEq

/-- Embedding of the `Item` record. -/
structure Item where
  title : List Char
  link : List Char
  pub_date : List Char
  post_type : PostType
  encoded : List (List Char)
  status : Status
  categories : List Category
deriving DecidableEq

/-- Embedding of the `Channel` record. -/
structure Channel where
  base_site_url : List Char
  item : List Item
deriving DecidableEq

/-- Embedding of the `Rss` wrapper. -/
structure Rss where
  channel : Channel
deriving DecidableEq

/-- Abstraction of `chrono::DateTime<FixedOffset>`: the only observation
the program makes of a parsed date is its RFC 3339 rendering. -/
structure DateTime where
  rfc3339 : List Char
deriving DecidableEq

/-- Embedding of `Item::content`: the raw body is the first element of
the `encoded` list; Rust indexing `self.encoded[0]` is modelled as
`head?`, with the out-of-bounds panic surfaced as `none`. -/
def Item.content (i : Item) : Option (List Char) :=
  i.encoded.head?

/-- The taxonomy-routing loop of `convert`: one pass over the item's
categories, pushing `post_tag` domains to tags, `category` domains to
categories and dropping every other domain. Returns `(tags, categories)`. -/
def routeCategories : List Category → List (List Char) × List (List Char)
  | [] => ([], [])
  | c :: cs =>
    let rest := routeCategories cs
    if c.domain = "post_tag".data then (c.nicename :: rest.1, rest.2)
    else if c.domain = "category".data then (rest.1, c.nicename :: rest.2)
    else rest

/-- One `writeln!` call: append the line and a line feed to the file. -/
def writeln (file line : List Char) : List Char :=
  file ++ line ++ ['\n']

/-- Content of the `_index.md` section file written by `create_section`. -/
def create_section : List Char :=
  let f := writeln [] "+++".data
  let f := writeln f "transparent = true".data
  let f := writeln f "sort_by = \"date\"".data
  let f := writeln f ("paginate_by = ".data ++ (Nat.repr PAGINATE_BY).data)
  let f := writeln f "+++".data
  f

/-- The inline-array rendering of `create_page`: quote each term and join
with a comma and a space. -/
def inlineArray (xs : List (List Char)) : List Char :=
  List.intercalate ", ".data (xs.map (fun x => '"' :: (x ++ ['"'])))

/-- Content of the page file written by `create_page`. -/
def create_page (title : List Char) (date : DateTime) (markdown : List Char)
    (categories tags : List (List Char)) : List Char :=
  let escaped_title := replaceChar '"' ['\\', '"'] title
  let f := writeln [] "+++".data
  let f := writeln f ("title = \"".data ++ escaped_title ++ "\"".data)
  let f := writeln f ("date = ".data ++ date.rfc3339)
  let f := writeln f "[taxonomies]".data
  let f := writeln f ("categories = [".data ++ inlineArray categories ++ "]".data)
  let f := writeln f ("tags = [".data ++ inlineArray tags ++ "]".data)
  let f := writeln f "+++".data
  writeln f markdown

/-- Embedding of `PathBuf::join` for a relative right-hand side. -/
def joinPath (dir rel : List Char) : List Char :=
  dir ++ '/' :: rel

/-- Embedding of `Path::parent`: the part before the last slash (the
empty path when there is no slash). -/
def parentPath (p : List Char) : List Char :=
  ((p.reverse.dropWhile (fun c => c != '/')).drop 1).reverse

/-- File-system effects of the converter, recorded as events. -/
inductive FileWrite where
  | mkdirAll : List Char → FileWrite
  | sectionIndex : List Char → List Char → FileWrite
  | page : List Char → List Char → FileWrite
deriving DecidableEq

/-- The fatal aborts of the converter: an unparseable `pubDate`
(`expect("cannot parse pubDate")`), and the out-of-bounds index in
`Item::content` on an empty `encoded` list. -/
inductive ConvError where
  | dateUnparseable : List Char → ConvError
  | indexOutOfBounds : ConvError
deriving DecidableEq

/-- State and effects of one loop iteration of `convert`. -/
structure StepResult where
  sections : List (List Char)
  events : List FileWrite
  error : Option ConvError
deriving DecidableEq

/-- Effects and outcome of a whole run of `convert`. -/
structure RunResult where
  events : List FileWrite
  error : Option ConvError
deriving DecidableEq

/-- One iteration of the `convert` loop over a single item.
`parseDate` abstracts `DateTime::parse_from_rfc2822`, `parseHtml`
abstracts `html2md::parse_html`. Mirrors the source order: status
filter, post-type match, taxonomy routing, path and section derivation,
directory creation, first-time section-file creation, date parsing
(fatal on failure), body extraction (fatal on empty `encoded`),
normalization, rendering, page creation. -/
def processItem (parseDate : List Char → Option DateTime)
    (parseHtml : List Char → List Char)
    (base outDir : List Char) (item : Item)
    (sections : List (List Char)) : StepResult :=
  match item.status with
  | Status.publish =>
    match item.post_type with
    | PostType.post =>
      let tc := routeCategories item.categories
      let path := joinPath outDir (generate_path base item.link)
      let sec := parentPath path
      let mk : List FileWrite := [FileWrite.mkdirAll sec]
      let ins : List (List Char) × List FileWrite :=
        if sec ∈ sections then (sections, [])
        else (sec :: sections, [FileWrite.sectionIndex sec create_section])
      match parseDate item.pub_date with
      | none =>
        ⟨ins.1, mk ++ ins.2, some (ConvError.dateUnparseable item.pub_date)⟩
      | some date =>
        match item.content with
        | none => ⟨ins.1, mk ++ ins.2, some ConvError.indexOutOfBounds⟩
        | some raw =>
          let markdown := parseHtml (normalize_line_breaks raw)
          ⟨ins.1,
           mk ++ ins.2
              ++ [FileWrite.page path (create_page item.title date markdown tc.2 tc.1)],
           none⟩
    | PostType.attachment => ⟨sections, [], none⟩
  | _ => ⟨sections, [], none⟩

/-- The `convert` loop: iterate the items, threading the section set and
stopping at the first fatal error. -/
def convertItems (parseDate : List Char → Option DateTime)
    (parseHtml : List Char → List Char)
    (base outDir : List Char) :
    List Item → List (List Char) → RunResult
  | [], _ => ⟨[], none⟩
  | item :: rest, sections =>
    let r := processItem parseDate parseHtml base outDir item sections
    match r.error with
    | some e => ⟨r.events, some e⟩
    | none =>
      let rr := convertItems parseDate parseHtml base outDir rest r.sections
      ⟨r.events ++ rr.events, rr.error⟩

/-- Embedding of `convert`: run the loop over the parsed document with an
empty section set. -/
def convert (parseDate : List Char → Option DateTime)
    (parseHtml : List Char → List Char)
    (rss : Rss) (outDir : List Char) : RunResult :=
  convertItems parseDate parseHtml rss.channel.base_site_url outDir rss.channel.item []

/-- C1: evaluated on the Windows-style input `"line1\r\nline2"`,
`normalize_line_breaks` replaces the carriage return with a line feed
(yielding two consecutive line feeds) and then turns each of them into a
`<br>` element, so the output holds two break elements between the
lines, not the single one the claim requires. -/
theorem normalize_line_breaks_crlf_c1 :
    normalize_line_breaks "line1\r\nline2".data = "line1<br><br>line2".data
    ∧ normalize_line_breaks "line1\r\nline2".data ≠ "line1<br>line2".data := by
  decide

/-- C2 (counterexample): with `base_url = "a"` and `link = "aab"`,
`generate_path` strips the base twice (Rust `trim_start_matches` removes
every leading occurrence), producing `"b.md"`, while removing the base
only once — as the claim states — would produce `"ab.md"`. -/
theorem generate_path_c2_counterexample :
    generate_path "a".data "aab".data = "b.md".data
    ∧ generate_path_once "a".data "aab".data = "ab.md".data
    ∧ generate_path "a".data "aab".data ≠ generate_path_once "a".data "aab".data := by
  decide

/-- C2 (amended): `generate_path` removes `base_url` from the front of
`link` repeatedly, as long as the remainder still starts with it; when
`link` does not start with `base_url`, or `base_url` is empty, the
removal is a no-op and the path is derived from the unmodified link by
trimming slashes at both ends and appending `.md`. -/
theorem generate_path_c2_amended (base link : List Char) :
    (base.isPrefixOf link = false →
      generate_path base link = trimMatchesSlash link ++ ".md".data)
    ∧ (base = [] →
      generate_path base link = trimMatchesSlash link ++ ".md".data)
    ∧ (base ≠ [] → base.isPrefixOf link = true →
      generate_path base link
        = generate_path base (List.drop base.length link)) := by
  refine ⟨?_, ?_, ?_⟩
  · intro h
    unfold generate_path
    rw [trimStartMatches_of_not_pre _ _ h]
  · intro h
    subst h
    unfold generate_path
    rw [trimStartMatches_nil_pat]
  · intro h1 h2
    unfold generate_path
    rw [trimStartMatches_step _ _ h1 h2]

/-- C2 (witness): the amended recursion step applied at the concrete
input `base_url = "a"`, `link = "aab"`. -/
theorem generate_path_c2_amended_witness :
    generate_path "a".data "aab".data
      = generate_path "a".data (List.drop "a".data.length "aab".data) :=
  (generate_path_c2_amended "a".data "aab".data).2.2 (by decide) (by decide)

/-- C4: the taxonomy-routing loop keeps exactly the `post_tag`-domain
nicenames as tags and the `category`-domain nicenames as categories, in
source order, dropping every other domain and keeping duplicates (it is
a filter-and-map of the input list); in particular the claim's concrete
category list yields `tags = ["rust", "zola"]` and
`categories = ["news"]`. -/
theorem routeCategories_c4 (cats : List Category) :
    routeCategories cats
      = ((cats.filter (fun c => decide (c.domain = "post_tag".data))).map Category.nicename,
         (cats.filter (fun c => decide (c.domain = "category".data))).map Category.nicename)
    ∧ routeCategories
        [⟨"category".data, "news".data⟩, ⟨"post_tag".data, "rust".data⟩,
         ⟨"post_tag".data, "zola".data⟩]
      = (["rust".data, "zola".data], ["news".data]) := by
  constructor
  · induction cats with
    | nil => rfl
    | cons c cs ih =>
      by_cases h1 : c.domain = "post_tag".data
      · have h2 : ¬ c.domain = "category".data := by
          rw [h1]; decide
        simp [routeCategories, List.filter_cons, h1, h2, ih]
      · by_cases h2 : c.domain = "category".data
        · simp [routeCategories, List.filter_cons, h1, h2, ih]
        · simp [routeCategories, List.filter_cons, h1, h2, ih]
  · decide

/-- Modelled from the claim wording for the inline arrays of the page
front matter: each term double-quoted, terms joined by a comma and a
space, the empty list rendered with empty contents. -/
def inlineArraySpec : List (List Char) → List Char
  | [] => []
  | [x] => '"' :: (x ++ ['"'])
  | x :: y :: rest => ('"' :: (x ++ ['"'])) ++ ", ".data ++ inlineArraySpec (y :: rest)

/-- Modelled from the claim wording for the page file: front-matter block
between `+++` markers holding the escaped title (only literal `"`
replaced by `\"`), the RFC 3339 date, and the `[taxonomies]` arrays,
followed by the markdown body and a trailing line feed. -/
def create_page_spec (title : List Char) (date : DateTime) (markdown : List Char)
    (categories tags : List (List Char)) : List Char :=
  "+++".data ++ ['\n']
  ++ "title = \"".data
  ++ (title.flatMap (fun c => if c = '"' then ['\\', '"'] else [c]))
  ++ "\"".data ++ ['\n']
  ++ "date = ".data ++ date.rfc3339 ++ ['\n']
  ++ "[taxonomies]".data ++ ['\n']
  ++ "categories = [".data ++ inlineArraySpec categories ++ "]".data ++ ['\n']
  ++ "tags = [".data ++ inlineArraySpec tags ++ "]".data ++ ['\n']
  ++ "+++".data ++ ['\n']
  ++ markdown ++ ['\n']

theorem replaceChar_eq_flatMap (a : Char) (r : List Char) (s : List Char) :
    replaceChar a r s = s.flatMap (fun c => if c = a then r else [c]) := by
  induction s with
  | nil => rfl
  | cons c cs ih => simp [replaceChar, ih]

theorem inlineArray_eq_spec (xs : List (List Char)) :
    inlineArray xs = inlineArraySpec xs := by
  induction xs with
  | nil => rfl
  | cons x ys ih =>
    cases ys with
    | nil => simp [inlineArray, inlineArraySpec, List.intercalate]
    | cons y rest =>
      simp only [inlineArraySpec]
      rw [← ih]
      simp [inlineArray, List.intercalate, List.intersperse]

/-- C5: the page file produced by `create_page` is exactly the
front-matter block the claim describes — `+++` markers, the title with
only literal `"` escaped to `\"`, the RFC 3339 date, the `[taxonomies]`
table with quoted comma-separated inline arrays (empty brackets for no
terms) — followed by the markdown body verbatim and a trailing line
feed; the conjuncts also evaluate a concrete page with a quote in the
title, a category and no tags. -/
theorem create_page_c5 (title : List Char) (date : DateTime) (markdown : List Char)
    (categories tags : List (List Char)) :
    create_page title date markdown categories tags
      = create_page_spec title date markdown categories tags
    ∧ inlineArray [] = []
    ∧ create_page "a\"b".data ⟨"2020-01-01T00:00:00+00:00".data⟩ "body".data
        ["news".data] []
      = ("+++\ntitle = \"a\\\"b\"\ndate = 2020-01-01T00:00:00+00:00\n"
          ++ "[taxonomies]\ncategories = [\"news\"]\ntags = []\n+++\nbody\n").data := by
  refine ⟨?_, rfl, by decide⟩
  simp [create_page, create_page_spec, writeln, replaceChar_eq_flatMap,
    inlineArray_eq_spec]

/-- C6: an item whose status is not Publish is skipped by `continue`
before any effect: the loop iteration writes no file, creates no section
index and leaves the section set unchanged, and the run over the
remaining items is exactly the run without that item. -/
theorem skip_unpublished_c6 (parseDate : List Char → Option DateTime)
    (parseHtml : List Char → List Char) (base outDir : List Char)
    (item : Item) (sections : List (List Char)) (rest : List Item)
    (h : item.status ≠ Status.publish) :
    processItem parseDate parseHtml base outDir item sections = ⟨sections, [], none⟩
    ∧ convertItems parseDate parseHtml base outDir (item :: rest) sections
      = convertItems parseDate parseHtml base outDir rest sections := by
  have hp : processItem parseDate parseHtml base outDir item sections
      = ⟨sections, [], none⟩ := by
    cases hst : item.status with
    | publish => exact absurd hst h
    | draft => simp [processItem, hst]
    | inherit => simp [processItem, hst]
    | priv => simp [processItem, hst]
  refine ⟨hp, ?_⟩
  simp [convertItems, hp]

/-- C6 (witness): the theorem applied to a concrete draft item. -/
theorem skip_unpublished_c6_witness :
    processItem (fun _ => none) (fun s => s) [] []
      ⟨"t".data, "l".data, "d".data, PostType.post, ["b".data], Status.draft, []⟩ []
      = ⟨[], [], none⟩ :=
  (skip_unpublished_c6 (fun _ => none) (fun s => s) [] []
    ⟨"t".data, "l".data, "d".data, PostType.post, ["b".data], Status.draft, []⟩ [] []
    (by decide)).1

/-- C7: an item of post type Attachment produces no file, no section
index and no change to the section set, whatever its status (a
non-published attachment is skipped by the status filter, a published
one falls into the logging-only branch), and the run over the remaining
items is exactly the run without it. -/
theorem skip_attachment_c7 (parseDate : List Char → Option DateTime)
    (parseHtml : List Char → List Char) (base outDir : List Char)
    (item : Item) (sections : List (List Char)) (rest : List Item)
    (h : item.post_type = PostType.attachment) :
    processItem parseDate parseHtml base outDir item sections = ⟨sections, [], none⟩
    ∧ convertItems parseDate parseHtml base outDir (item :: rest) sections
      = convertItems parseDate parseHtml base outDir rest sections := by
  have hp : processItem parseDate parseHtml base outDir item sections
      = ⟨sections, [], none⟩ := by
    cases hst : item.status with
    | publish => simp [processItem, hst, h]
    | draft => simp [processItem, hst]
    | inherit => simp [processItem, hst]
    | priv => simp [processItem, hst]
  refine ⟨hp, ?_⟩
  simp [convertItems, hp]

/-- C7 (witness): the theorem applied to a concrete published
attachment. -/
theorem skip_attachment_c7_witness :
    processItem (fun _ => none) (fun s => s) [] []
      ⟨"t".data, "l".data, "d".data, PostType.attachment, ["b".data], Status.publish, []⟩ []
      = ⟨[], [], none⟩ :=
  (skip_attachment_c7 (fun _ => none) (fun s => s) [] []
    ⟨"t".data, "l".data, "d".data, PostType.attachment, ["b".data], Status.publish, []⟩ [] []
    (by decide)).1

/-- C8: when a published post's pubDate fails to parse, the run stops at
that item with the date error: the trace is exactly the events of that
iteration (directory creation and possibly a section index, but no page
— the failing `expect` precedes `create_page`), and no later item is
processed. -/
theorem date_abort_c8 (parseDate : List Char → Option DateTime)
    (parseHtml : List Char → List Char) (base outDir : List Char)
    (item : Item) (sections : List (List Char)) (rest : List Item)
    (hs : item.status = Status.publish) (hp : item.post_type = PostType.post)
    (hd : parseDate item.pub_date = none) :
    convertItems parseDate parseHtml base outDir (item :: rest) sections
      = ⟨(processItem parseDate parseHtml base outDir item sections).events,
         some (ConvError.dateUnparseable item.pub_date)⟩
    ∧ ∀ p c, FileWrite.page p c
        ∉ (processItem parseDate parseHtml base outDir item sections).events := by
  have hpi : (processItem parseDate parseHtml base outDir item sections).error
      = some (ConvError.dateUnparseable item.pub_date) := by
    simp [processItem, hs, hp, hd]
  constructor
  · simp [convertItems, hpi]
  · intro p c
    simp only [processItem, hs, hp, hd]
    split
    · simp
    · simp

/-- C8 (witness): the theorem applied to a concrete published post under
a date parser that rejects its pubDate. -/
theorem date_abort_c8_witness :
    convertItems (fun _ => none) (fun s => s) "u".data "o".data
      [⟨"t".data, "u/a/p1".data, "bad".data, PostType.post, ["b".data],
        Status.publish, []⟩] []
      = ⟨(processItem (fun _ => none) (fun s => s) "u".data "o".data
          ⟨"t".data, "u/a/p1".data, "bad".data, PostType.post, ["b".data],
           Status.publish, []⟩ []).events,
         some (ConvError.dateUnparseable "bad".data)⟩ :=
  (date_abort_c8 (fun _ => none) (fun s => s) "u".data "o".data
    ⟨"t".data, "u/a/p1".data, "bad".data, PostType.post, ["b".data],
     Status.publish, []⟩ [] [] rfl rfl rfl).1

/-- C9: the body used for rendering is exactly the first element of the
`encoded` list, and an iteration's whole outcome depends on `encoded`
only through that first element: two items identical except for extra
`encoded` occurrences beyond the first are processed identically. -/
theorem first_encoded_c9 (parseDate : List Char → Option DateTime)
    (parseHtml : List Char → List Char) (base outDir : List Char)
    (item : Item) (sections : List (List Char))
    (l1 l2 : List (List Char)) (h : l1.head? = l2.head?) :
    Item.content { item with encoded := l1 } = l1.head?
    ∧ processItem parseDate parseHtml base outDir { item with encoded := l1 } sections
      = processItem parseDate parseHtml base outDir { item with encoded := l2 } sections := by
  refine ⟨rfl, ?_⟩
  simp [processItem, Item.content, h]

/-- C9 (witness): the theorem applied to an item whose `encoded` list
holds a second occurrence, against the same item without it. -/
theorem first_encoded_c9_witness :
    processItem (fun _ => some ⟨"D".data⟩) (fun s => s) "u".data "o".data
      ⟨"t".data, "u/a/p1".data, "d".data, PostType.post,
       ["b1".data, "b2".data], Status.publish, []⟩ []
      = processItem (fun _ => some ⟨"D".data⟩) (fun s => s) "u".data "o".data
      ⟨"t".data, "u/a/p1".data, "d".data, PostType.post,
       ["b1".data], Status.publish, []⟩ [] :=
  (first_encoded_c9 (fun _ => some ⟨"D".data⟩) (fun s => s) "u".data "o".data
    ⟨"t".data, "u/a/p1".data, "d".data, PostType.post, [], Status.publish, []⟩ []
    ["b1".data, "b2".data] ["b1".data] rfl).2

/-- C10: indexing `encoded[0]` requires a non-empty `encoded` list: when
the list is non-empty the access is defined and the out-of-bounds abort
is unreachable in the iteration, and for a published post with an empty
`encoded` list (and a parseable date, which is checked first) the
iteration ends in the out-of-bounds abort — the program panics. -/
theorem encoded_nonempty_c10 (parseDate : List Char → Option DateTime)
    (parseHtml : List Char → List Char) (base outDir : List Char)
    (item : Item) (sections : List (List Char)) :
    (item.encoded ≠ [] →
      Item.content item ≠ none
      ∧ (processItem parseDate parseHtml base outDir item sections).error
          ≠ some ConvError.indexOutOfBounds)
    ∧ (item.encoded = [] → item.status = Status.publish →
      item.post_type = PostType.post →
      ∀ d, parseDate item.pub_date = some d →
      (processItem parseDate parseHtml base outDir item sections).error
        = some ConvError.indexOutOfBounds) := by
  constructor
  · intro hne
    obtain ⟨b, bs, hbs⟩ : ∃ b bs, item.encoded = b :: bs := by
      cases he : item.encoded with
      | nil => exact absurd he hne
      | cons b bs => exact ⟨b, bs, rfl⟩
    have hc : Item.content item = some b := by
      simp [Item.content, hbs]
    refine ⟨by simp [hc], ?_⟩
    cases hst : item.status with
    | publish =>
      cases hpt : item.post_type with
      | post =>
        cases hpd : parseDate item.pub_date with
        | none => simp [processItem, hst, hpt, hpd]
        | some d => simp [processItem, hst, hpt, hpd, hc]
      | attachment => simp [processItem, hst, hpt]
    | draft => simp [processItem, hst]
    | inherit => simp [processItem, hst]
    | priv => simp [processItem, hst]
  · intro he hs hp d hd
    have hc : Item.content item = none := by
      simp [Item.content, he]
    simp [processItem, hs, hp, hd, hc]

/-- C10 (witness): the theorem applied to a concrete post with one
encoded element (no abort) and to a concrete published post with an
empty encoded list (out-of-bounds abort). -/
theorem encoded_nonempty_c10_witness :
    ((processItem (fun _ => some ⟨"D".data⟩) (fun s => s) "u".data "o".data
        ⟨"t".data, "u/a/p1".data, "d".data, PostType.post, ["b".data],
         Status.publish, []⟩ []).error
      ≠ some ConvError.indexOutOfBounds)
    ∧ (processItem (fun _ => some ⟨"D".data⟩) (fun s => s) "u".data "o".data
        ⟨"t".data, "u/a/p1".data, "d".data, PostType.post, [],
         Status.publish, []⟩ []).error
      = some ConvError.indexOutOfBounds :=
  ⟨((encoded_nonempty_c10 (fun _ => some ⟨"D".data⟩) (fun s => s) "u".data "o".data
      ⟨"t".data, "u/a/p1".data, "d".data, PostType.post, ["b".data],
       Status.publish, []⟩ []).1 (by decide)).2,
   (encoded_nonempty_c10 (fun _ => some ⟨"D".data⟩) (fun s => s) "u".data "o".data
      ⟨"t".data, "u/a/p1".data, "d".data, PostType.post, [],
       Status.publish, []⟩ []).2 rfl rfl rfl ⟨"D".data⟩ rfl⟩

/-- Recognizer for a section-index write into directory `d`. -/
def isSectionWriteFor (d : List Char) : FileWrite → Bool
  | FileWrite.sectionIndex d2 _ => d2 = d
  | _ => false

/-- Number of section-index writes into directory `d` in a trace. -/
def sectionWritesFor (d : List Char) (evs : List FileWrite) : Nat :=
  evs.countP (isSectionWriteFor d)

theorem isSectionWriteFor_eq (d : List Char) (e : FileWrite)
    (h : isSectionWriteFor d e = true) : ∃ c, e = FileWrite.sectionIndex d c := by
  cases e with
  | mkdirAll p => simp [isSectionWriteFor] at h
  | page p c => simp [isSectionWriteFor] at h
  | sectionIndex d2 c =>
    simp only [isSectionWriteFor, decide_eq_true_eq] at h
    exact ⟨c, by rw [h]⟩

theorem sectionWritesFor_append (d : List Char) (a b : List FileWrite) :
    sectionWritesFor d (a ++ b) = sectionWritesFor d a + sectionWritesFor d b := by
  simp [sectionWritesFor, List.countP_append]

theorem sectionWritesFor_eq_zero (d : List Char) (evs : List FileWrite)
    (h : ∀ c, FileWrite.sectionIndex d c ∉ evs) :
    sectionWritesFor d evs = 0 := by
  rw [sectionWritesFor, List.countP_eq_zero]
  intro e he hbad
  obtain ⟨c, rfl⟩ := isSectionWriteFor_eq d e hbad
  exact h c he

theorem sectionWritesFor_pos (d : List Char) (evs : List FileWrite)
    (h : 0 < sectionWritesFor d evs) :
    ∃ c, FileWrite.sectionIndex d c ∈ evs := by
  rw [sectionWritesFor, List.countP_pos_iff] at h
  obtain ⟨e, he, hp⟩ := h
  obtain ⟨c, rfl⟩ := isSectionWriteFor_eq d e hp
  exact ⟨c, he⟩

theorem processItem_section_writes (parseDate : List Char → Option DateTime)
    (parseHtml : List Char → List Char) (base outDir : List Char)
    (item : Item) (sections : List (List Char)) :
    (∀ d, d ∈ sections →
      d ∈ (processItem parseDate parseHtml base outDir item sections).sections)
    ∧ (∀ d c,
      FileWrite.sectionIndex d c
          ∈ (processItem parseDate parseHtml base outDir item sections).events →
      c = create_section ∧ d ∉ sections
        ∧ d ∈ (processItem parseDate parseHtml base outDir item sections).sections)
    ∧ (∀ d,
      sectionWritesFor d
        (processItem parseDate parseHtml base outDir item sections).events ≤ 1) := by
  cases hst : item.status with
  | publish =>
    cases hpt : item.post_type with
    | post =>
      by_cases hmem :
          parentPath (joinPath outDir (generate_path base item.link)) ∈ sections
      · cases hpd : parseDate item.pub_date with
        | none =>
          simp only [processItem, hst, hpt, hpd, if_pos hmem]
          refine ⟨fun d hd => hd, ?_, ?_⟩
          · intro d c hc
            simp at hc
          · intro d
            simp [sectionWritesFor, List.countP_cons, isSectionWriteFor]
        | some date =>
          cases hcon : item.content with
          | none =>
            simp only [processItem, hst, hpt, hpd, hcon, if_pos hmem]
            refine ⟨fun d hd => hd, ?_, ?_⟩
            · intro d c hc
              simp at hc
            · intro d
              simp [sectionWritesFor, List.countP_cons, isSectionWriteFor]
          | some raw =>
            simp only [processItem, hst, hpt, hpd, hcon, if_pos hmem]
            refine ⟨fun d hd => hd, ?_, ?_⟩
            · intro d c hc
              simp at hc
            · intro d
              simp [sectionWritesFor, List.countP_cons, List.countP_append,
                isSectionWriteFor]
      · cases hpd : parseDate item.pub_date with
        | none =>
          simp only [processItem, hst, hpt, hpd, if_neg hmem]
          refine ⟨fun d hd => List.mem_cons_of_mem _ hd, ?_, ?_⟩
          · intro d c hc
            simp only [List.cons_append, List.nil_append, List.mem_cons,
              List.not_mem_nil, or_false, FileWrite.sectionIndex.injEq,
              reduceCtorEq, false_or] at hc
            obtain ⟨rfl, rfl⟩ := hc
            exact ⟨rfl, hmem, List.mem_cons_self _ _⟩
          · intro d
            simp only [sectionWritesFor, List.cons_append, List.nil_append,
              List.countP_cons, List.countP_nil, isSectionWriteFor]
            split <;> simp
        | some date =>
          cases hcon : item.content with
          | none =>
            simp only [processItem, hst, hpt, hpd, hcon, if_neg hmem]
            refine ⟨fun d hd => List.mem_cons_of_mem _ hd, ?_, ?_⟩
            · intro d c hc
              simp only [List.cons_append, List.nil_append, List.mem_cons,
                List.not_mem_nil, or_false, FileWrite.sectionIndex.injEq,
                reduceCtorEq, false_or] at hc
              obtain ⟨rfl, rfl⟩ := hc
              exact ⟨rfl, hmem, List.mem_cons_self _ _⟩
            · intro d
              simp only [sectionWritesFor, List.cons_append, List.nil_append,
                List.countP_cons, List.countP_nil, isSectionWriteFor]
              split <;> simp
          | some raw =>
            simp only [processItem, hst, hpt, hpd, hcon, if_neg hmem]
            refine ⟨fun d hd => List.mem_cons_of_mem _ hd, ?_, ?_⟩
            · intro d c hc
              simp only [List.cons_append, List.nil_append, List.mem_cons,
                List.mem_append, List.not_mem_nil, or_false,
                FileWrite.sectionIndex.injEq, reduceCtorEq, false_or] at hc
              obtain ⟨rfl, rfl⟩ := hc
              exact ⟨rfl, hmem, List.mem_cons_self _ _⟩
            · intro d
              simp only [sectionWritesFor, List.cons_append, List.nil_append,
                List.countP_cons, List.countP_append, List.countP_nil,
                isSectionWriteFor]
              norm_num
              split <;> simp
    | attachment =>
      simp only [processItem, hst, hpt]
      refine ⟨fun d hd => hd, ?_, ?_⟩
      · intro d c hc
        simp at hc
      · intro d
        simp [sectionWritesFor]
  | draft =>
    simp only [processItem, hst]
    exact ⟨fun d hd => hd, fun d c hc => absurd hc (by simp), fun d => by
      simp [sectionWritesFor]⟩
  | inherit =>
    simp only [processItem, hst]
    exact ⟨fun d hd => hd, fun d c hc => absurd hc (by simp), fun d => by
      simp [sectionWritesFor]⟩
  | priv =>
    simp only [processItem, hst]
    exact ⟨fun d hd => hd, fun d c hc => absurd hc (by simp), fun d => by
      simp [sectionWritesFor]⟩

theorem convertItems_section_writes (parseDate : List Char → Option DateTime)
    (parseHtml : List Char → List Char) (base outDir : List Char) :
    ∀ (items : List Item) (sections : List (List Char)),
    (∀ d c, FileWrite.sectionIndex d c
        ∈ (convertItems parseDate parseHtml base outDir items sections).events →
      c = create_section)
    ∧ (∀ d, d ∈ sections →
      sectionWritesFor d
        (convertItems parseDate parseHtml base outDir items sections).events = 0)
    ∧ (∀ d, sectionWritesFor d
        (convertItems parseDate parseHtml base outDir items sections).events ≤ 1) := by
  intro items
  induction items with
  | nil =>
    intro sections
    refine ⟨?_, ?_, ?_⟩
    · intro d c hc
      simp [convertItems] at hc
    · intro d hd
      simp [convertItems, sectionWritesFor]
    · intro d
      simp [convertItems, sectionWritesFor]
  | cons item rest ih =>
    intro sections
    obtain ⟨hmono, hwrite, hle⟩ :=
      processItem_section_writes parseDate parseHtml base outDir item sections
    have hstepzero : ∀ d, d ∈ sections →
        sectionWritesFor d
          (processItem parseDate parseHtml base outDir item sections).events = 0 := by
      intro d hd
      apply sectionWritesFor_eq_zero
      intro c hc
      exact (hwrite d c hc).2.1 hd
    cases herr : (processItem parseDate parseHtml base outDir item sections).error with
    | some e =>
      have hrun : convertItems parseDate parseHtml base outDir (item :: rest) sections
          = ⟨(processItem parseDate parseHtml base outDir item sections).events,
             some e⟩ := by
        simp [convertItems, herr]
      rw [hrun]
      exact ⟨fun d c hc => (hwrite d c hc).1, hstepzero, hle⟩
    | none =>
      have hrun : convertItems parseDate parseHtml base outDir (item :: rest) sections
          = ⟨(processItem parseDate parseHtml base outDir item sections).events
              ++ (convertItems parseDate parseHtml base outDir rest
                  (processItem parseDate parseHtml base outDir item sections).sections).events,
             (convertItems parseDate parseHtml base outDir rest
                  (processItem parseDate parseHtml base outDir item sections).sections).error⟩ := by
        simp [convertItems, herr]
      obtain ⟨ih1, ih2, ih3⟩ :=
        ih (processItem parseDate parseHtml base outDir item sections).sections
      rw [hrun]
      refine ⟨?_, ?_, ?_⟩
      · intro d c hc
        simp only [List.mem_append] at hc
        rcases hc with hc | hc
        · exact (hwrite d c hc).1
        · exact ih1 d c hc
      · intro d hd
        rw [sectionWritesFor_append]
        rw [hstepzero d hd, ih2 d (hmono d hd)]
      · intro d
        rw [sectionWritesFor_append]
        rcases Nat.eq_zero_or_pos (sectionWritesFor d
            (processItem parseDate parseHtml base outDir item sections).events) with hz | hp
        · rw [hz]
          simpa using ih3 d
        · obtain ⟨c, hc⟩ := sectionWritesFor_pos d _ hp
          have hmem2 : d ∈ (processItem parseDate parseHtml base outDir item sections).sections :=
            (hwrite d c hc).2.2
          rw [ih2 d hmem2]
          have := hle d
          omega

/-- C3: in any run of the converter, each output directory receives at
most one section-index write, every section-index write carries the same
fixed content, and that content is exactly the `+++`-delimited block
with `transparent = true`, `sort_by = "date"` and `paginate_by = 5`. -/
theorem section_index_once_c3 (parseDate : List Char → Option DateTime)
    (parseHtml : List Char → List Char) (rss : Rss) (outDir d : List Char) :
    sectionWritesFor d (convert parseDate parseHtml rss outDir).events ≤ 1
    ∧ (∀ c, FileWrite.sectionIndex d c
        ∈ (convert parseDate parseHtml rss outDir).events → c = create_section)
    ∧ create_section
      = "+++\ntransparent = true\nsort_by = \"date\"\npaginate_by = 5\n+++\n".data := by
  obtain ⟨h1, _, h3⟩ :=
    convertItems_section_writes parseDate parseHtml rss.channel.base_site_url outDir
      rss.channel.item []
  exact ⟨h3 d, fun c hc => h1 d c hc, by decide⟩

/-- C3 (witness): the theorem applied to a concrete run with two
published posts resolving into the same directory; the section-index
write present in its trace is the fixed content. -/
theorem section_index_once_c3_witness :
    sectionWritesFor "o/a".data
      (convert (fun _ => some ⟨"D".data⟩) (fun s => s)
        ⟨⟨"u".data,
          [⟨"t1".data, "u/a/p1".data, "d".data, PostType.post, ["b".data],
            Status.publish, []⟩,
           ⟨"t2".data, "u/a/p2".data, "d".data, PostType.post, ["b".data],
            Status.publish, []⟩]⟩⟩
        "o".data).events ≤ 1
    ∧ create_section
      = "+++\ntransparent = true\nsort_by = \"date\"\npaginate_by = 5\n+++\n".data
    ∧ create_section = create_section :=
  ⟨(section_index_once_c3 (fun _ => some ⟨"D".data⟩) (fun s => s)
      ⟨⟨"u".data,
        [⟨"t1".data, "u/a/p1".data, "d".data, PostType.post, ["b".data],
          Status.publish, []⟩,
         ⟨"t2".data, "u/a/p2".data, "d".data, PostType.post, ["b".data],
          Status.publish, []⟩]⟩⟩
      "o".data "o/a".data).1,
   (section_index_once_c3 (fun _ => some ⟨"D".data⟩) (fun s => s)
      ⟨⟨"u".data,
        [⟨"t1".data, "u/a/p1".data, "d".data, PostType.post, ["b".data],
          Status.publish, []⟩,
         ⟨"t2".data, "u/a/p2".data, "d".data, PostType.post, ["b".data],
          Status.publish, []⟩]⟩⟩
      "o".data "o/a".data).2.2,
   (section_index_once_c3 (fun _ => some ⟨"D".data⟩) (fun s => s)
      ⟨⟨"u".data,
        [⟨"t1".data, "u/a/p1".data, "d".data, PostType.post, ["b".data],
          Status.publish, []⟩,
         ⟨"t2".data, "u/a/p2".data, "d".data, PostType.post, ["b".data],
          Status.publish, []⟩]⟩⟩
      "o".data "o/a".data).2.1 create_section (by decide)⟩

end WordpressToZola
